import Mathlib

/-!
Verification of the CTC decoding module (`speechbrain/decoders/ctc.py`).

The module has two pure functions:

* `filter_ctc_output(string_pred, blank_id=-1)` — applies the CTC collapse
  rule to one decoded sequence in three passes:
  1. keep each element that is at index 0 or differs from the element at the
     previous index (`[v for i, v in enumerate(string_pred) if i == 0 or
     v != string_pred[i - 1]]`);
  2. take the first element of each run of consecutive equal elements
     (`[i[0] for i in groupby(string_out)]`);
  3. drop every element equal to `blank_id`
     (`filter(lambda elem: elem != blank_id, string_out)`).
  A non-list argument raises `ValueError`.

* `ctc_greedy_decode(probabilities, seq_lens, blank_id)` — for each
  `(seq, seq_len)` pair of `zip(probabilities, seq_lens)` computes
  `actual_size = int(torch.round(seq_len * batch_max_len))` with
  `batch_max_len = probabilities.shape[-1]`, takes the per-time-step arg-max
  over the vocabulary dimension of the first `actual_size` frames
  (`torch.max(seq.narrow(-1, 0, actual_size), dim=0)`), and collapses the
  resulting dense index sequence with `filter_ctc_output`.

The embedding below uses `List ℚ`-based tensors (exact rationals in place of
floats), models `torch.round`'s round-half-to-even rule exactly, models
`torch.max(·, dim=0)`'s tie rule (index of the first maximal value), and
models raised exceptions with `Except`.
-/

namespace CTC

variable {α : Type} [DecidableEq α]

/-- Pass 1 of `filter_ctc_output`: the comprehension
`[v for i, v in enumerate(string_pred) if i == 0 or v != string_pred[i - 1]]`,
keeping each element that sits at index 0 or differs from the element at the
previous index of the input. -/
def filterReps (string_pred : List α) : List α :=
  (string_pred.enum.filter (fun p =>
    decide (p.1 = 0 ∨ ¬ string_pred[p.1 - 1]? = some p.2))).map Prod.snd

/-- Helper for pass 2: `itertools.groupby` starts a new group exactly when the
current element differs from the current group's key; `[i[0] for i in
groupby(l)]` therefore returns the key (first element) of each maximal run of
consecutive equal elements.  `key` is the key of the group being scanned. -/
def groupbyFirstsAux (key : α) : List α → List α
  | [] => []
  | x :: xs => if x = key then groupbyFirstsAux key xs else x :: groupbyFirstsAux x xs

/-- Pass 2 of `filter_ctc_output`: `[i[0] for i in groupby(string_out)]`. -/
def groupbyFirsts : List α → List α
  | [] => []
  | x :: xs => x :: groupbyFirstsAux x xs

/-- The body of `filter_ctc_output` on an argument that passed the
`isinstance(string_pred, list)` check: pass 1, then pass 2, then removal of
every element equal to `blank_id`. -/
def filter_ctc_output (string_pred : List α) (blank_id : α) : List α :=
  (groupbyFirsts (filterReps string_pred)).filter (fun elem => decide (elem ≠ blank_id))

/-- The Python signature is `filter_ctc_output(string_pred, blank_id=-1)`: when
the caller omits `blank_id` it defaults to `-1`.  The generic definition above
cannot carry a value default, so the integer instance records it. -/
def filter_ctc_output_int (string_pred : List ℤ) (blank_id : ℤ := -1) : List ℤ :=
  filter_ctc_output string_pred blank_id

/-- A dynamically typed Python argument as seen by the
`isinstance(string_pred, list)` check: either an actual list, or some
non-list object (carrying only its type name, which is all the check looks at). -/
inductive PyArg (α : Type) where
  | pyList (l : List α)
  | nonList (typeName : String)

/-- `filter_ctc_output` including its dynamic type check: a list is processed
by the three passes, anything else raises
`ValueError("filter_ctc_out can only filter python lists")` before any output
is produced. -/
def filter_ctc_output_checked (string_pred : PyArg α) (blank_id : α) :
    Except String (List α) :=
  match string_pred with
  | .pyList l => Except.ok (filter_ctc_output l blank_id)
  | .nonList _ => Except.error "filter_ctc_out can only filter python lists"

/-- Composition of pass 1 and pass 3 only, skipping the `groupby` pass; used
to state that the `groupby` pass is redundant. -/
def filter_ctc_output_two_pass (string_pred : List α) (blank_id : α) : List α :=
  (filterReps string_pred).filter (fun elem => decide (elem ≠ blank_id))

/-! ### Bridge lemmas: the three passes versus `List.destutter` -/

lemma groupbyFirstsAux_eq_destutter' (l : List α) :
    ∀ key : α, key :: groupbyFirstsAux key l = l.destutter' (· ≠ ·) key := by
  induction l with
  | nil => intro key; simp [groupbyFirstsAux, List.destutter']
  | cons x xs ih =>
    intro key
    by_cases h : x = key
    · subst h
      simp [groupbyFirstsAux, List.destutter', ih]
    · simp [groupbyFirstsAux, List.destutter', h, Ne.symm h, ← ih]

lemma groupbyFirsts_eq_destutter (l : List α) :
    groupbyFirsts l = l.destutter (· ≠ ·) := by
  cases l with
  | nil => rfl
  | cons x xs =>
    simp [groupbyFirsts, List.destutter, groupbyFirstsAux_eq_destutter' xs x]

lemma groupbyFirstsAux_cons (key x : α) (xs : List α) :
    groupbyFirstsAux key (x :: xs)
      = if x = key then groupbyFirstsAux key xs else x :: groupbyFirstsAux x xs := rfl

/-- Index bookkeeping for pass 1: scanning the suffix `l` of `l0` that starts
at position `i + 1`, where position `i` of `l0` holds `prev`, the kept
elements are exactly those of `groupbyFirstsAux prev l`. -/
lemma filterReps_aux (l0 : List α) (l : List α) :
    ∀ (i : ℕ) (prev : α),
      (∀ k : ℕ, l[k]? = l0[i + 1 + k]?) →
      l0[i]? = some prev →
      ((l.enumFrom (i + 1)).filter (fun p =>
        decide (p.1 = 0 ∨ ¬ l0[p.1 - 1]? = some p.2))).map Prod.snd
        = groupbyFirstsAux prev l := by
  induction l with
  | nil => intro i prev _ _; simp [groupbyFirstsAux]
  | cons x xs ih =>
    intro i prev hget hprev
    have hx : l0[i + 1]? = some x := by
      have h0 := hget 0
      simpa using h0.symm
    have hxs : ∀ k : ℕ, xs[k]? = l0[i + 1 + 1 + k]? := by
      intro k
      have hk := hget (k + 1)
      rw [List.getElem?_cons_succ] at hk
      rw [hk]
      congr 1
      omega
    rw [List.enumFrom_cons]
    by_cases h : x = prev
    · rw [groupbyFirstsAux_cons, if_pos h,
        List.filter_cons_of_neg (by simp [hprev, h]),
        ih (i + 1) prev hxs (by rw [hx, h])]
    · rw [groupbyFirstsAux_cons, if_neg h,
        List.filter_cons_of_pos
          (by simp only [decide_eq_true_eq]
              right
              rw [show i + 1 - 1 = i from rfl, hprev]
              exact fun hcontra => h (Option.some.inj hcontra).symm),
        List.map_cons]
      exact congrArg (x :: ·) (ih (i + 1) x hxs hx)

lemma filterReps_eq_groupbyFirsts (l : List α) :
    filterReps l = groupbyFirsts l := by
  cases l with
  | nil => rfl
  | cons x xs =>
    unfold filterReps groupbyFirsts
    rw [List.enum_cons, List.filter_cons_of_pos (by simp), List.map_cons]
    refine congrArg (x :: ·) ?_
    refine filterReps_aux (x :: xs) xs 0 x (fun k => ?_) List.getElem?_cons_zero
    rw [show 0 + 1 + k = k + 1 from by omega, List.getElem?_cons_succ]

lemma filterReps_eq_destutter (l : List α) :
    filterReps l = l.destutter (· ≠ ·) := by
  rw [filterReps_eq_groupbyFirsts, groupbyFirsts_eq_destutter]

/-- The whole of `filter_ctc_output` collapses to: destutter by `≠`, then
remove the blanks (the `groupby` pass is idempotent on pass 1's output). -/
lemma filter_ctc_output_eq (s : List α) (b : α) :
    filter_ctc_output s b
      = (s.destutter (· ≠ ·)).filter (fun elem => decide (elem ≠ b)) := by
  unfold filter_ctc_output
  rw [filterReps_eq_destutter, groupbyFirsts_eq_destutter, List.destutter_idem]

/-! ### Properties of `filter_ctc_output` -/

lemma not_mem_filter_ctc_output (s : List α) (b : α) :
    b ∉ filter_ctc_output s b := by
  rw [filter_ctc_output_eq]
  intro hmem
  have hkeep := (List.mem_filter.mp hmem).2
  simp at hkeep

lemma mem_of_mem_filter_ctc_output {s : List α} {b a : α}
    (h : a ∈ filter_ctc_output s b) : a ∈ s := by
  rw [filter_ctc_output_eq] at h
  exact (List.destutter_sublist _ s).subset (List.mem_filter.mp h).1

/-- On a sequence that already has no adjacent duplicates and no blank,
`filter_ctc_output` is the identity. -/
lemma filter_ctc_output_eq_self {s : List α} {b : α}
    (hchain : List.Chain' (· ≠ ·) s) (hb : b ∉ s) :
    filter_ctc_output s b = s := by
  rw [filter_ctc_output_eq, List.destutter_of_chain' _ s hchain]
  refine List.filter_eq_self.mpr ?_
  intro a ha
  simp only [decide_eq_true_eq]
  exact fun he => hb (he ▸ ha)

/-- On a blank-free input the final pass removes nothing, so
`filter_ctc_output` is exactly the destutter of the input. -/
lemma filter_ctc_output_of_not_mem {s : List α} {b : α} (hb : b ∉ s) :
    filter_ctc_output s b = s.destutter (· ≠ ·) := by
  rw [filter_ctc_output_eq]
  refine List.filter_eq_self.mpr ?_
  intro a ha
  have has : a ∈ s := (List.destutter_sublist _ s).subset ha
  simp only [decide_eq_true_eq]
  exact fun he => hb (he ▸ has)

/-! ### Claims about `filter_ctc_output` -/

/-- Claim C2: `filter_ctc_output` merges adjacent duplicates before removing
blanks, so a blank between two identical symbols prevents them from merging:
`filter_ctc_output ['a', 'blank', 'a'] 'blank' = ['a', 'a']`, not `['a']`. -/
theorem filter_ctc_output_blank_separated_non_merge :
    filter_ctc_output ["a", "blank", "a"] "blank" = ["a", "a"] := by rfl

/-- Claim C3, counterexample: `filter_ctc_output` is not idempotent.  For
`s = [1, 7, 1]` with blank id `7` the first application gives `[1, 1]` and the
second collapses that to `[1]`. -/
theorem filter_ctc_output_not_idempotent :
    filter_ctc_output (filter_ctc_output [1, 7, 1] (7 : ℤ)) 7
      ≠ filter_ctc_output [1, 7, 1] (7 : ℤ) := by decide

/-- Claim C3, amended: `filter_ctc_output` is idempotent on `s` exactly when
its output on `s` has no two adjacent equal elements (blank removal can
re-create such adjacency, and re-application then merges it). -/
theorem filter_ctc_output_idem_iff (s : List α) (b : α) :
    filter_ctc_output (filter_ctc_output s b) b = filter_ctc_output s b
      ↔ List.Chain' (· ≠ ·) (filter_ctc_output s b) := by
  rw [filter_ctc_output_of_not_mem (not_mem_filter_ctc_output s b)]
  exact List.destutter_eq_self_iff _ (filter_ctc_output s b)

/-- Witness for the amended claim C3 at a concrete input: `[1, 1, 2]` with
blank `0` maps to `[1, 2]`, which has no adjacent duplicates, so a second
application is the identity. -/
theorem filter_ctc_output_idem_iff_witness :
    filter_ctc_output (filter_ctc_output [1, 1, 2] (0 : ℤ)) 0
      = filter_ctc_output [1, 1, 2] (0 : ℤ) :=
  (filter_ctc_output_idem_iff [1, 1, 2] (0 : ℤ)).mpr (by
    rw [show filter_ctc_output [1, 1, 2] (0 : ℤ) = [1, 2] from by decide]
    exact List.chain'_cons.mpr ⟨by decide, List.chain'_singleton 2⟩)

/-- Claim C4, counterexample: the output of `filter_ctc_output` can contain
two consecutive equal elements: `[0, 5, 0]` with blank id `5` yields
`[0, 0]`. -/
theorem filter_ctc_output_adjacent_dup_counterexample :
    ¬ List.Chain' (· ≠ ·) (filter_ctc_output [0, 5, 0] (5 : ℤ)) := by
  rw [show filter_ctc_output [0, 5, 0] (5 : ℤ) = [0, 0] from by decide]
  intro h
  exact (List.chain'_cons.mp h).1 rfl

/-- Claim C4, amended: the sequence produced by the two collapse passes,
before blank removal, has no two consecutive equal elements; the output of
`filter_ctc_output` is that duplicate-free sequence with the blanks filtered
out (a step which can re-introduce adjacent duplicates). -/
theorem filter_ctc_output_chain_before_blank_removal (s : List α) (b : α) :
    ∃ mid : List α, List.Chain' (· ≠ ·) mid ∧
      filter_ctc_output s b = mid.filter (fun elem => decide (elem ≠ b)) :=
  ⟨s.destutter (· ≠ ·), List.destutter_is_chain' _ s, filter_ctc_output_eq s b⟩

/-- Witness for the amended claim C4 at a concrete input. -/
theorem filter_ctc_output_chain_before_blank_removal_witness :
    ∃ mid : List ℤ, List.Chain' (· ≠ ·) mid ∧
      filter_ctc_output [3, 3, 6] (6 : ℤ)
        = mid.filter (fun elem => decide (elem ≠ (6 : ℤ))) :=
  filter_ctc_output_chain_before_blank_removal [3, 3, 6] 6

/-- Claim C7: the output of `filter_ctc_output` never contains the blank
identifier. -/
theorem filter_ctc_output_blank_removed (s : List α) (b : α) :
    b ∉ filter_ctc_output s b :=
  not_mem_filter_ctc_output s b

/-- Witness for claim C7 at a concrete input. -/
theorem filter_ctc_output_blank_removed_witness :
    (5 : ℤ) ∉ filter_ctc_output [1, 5, 1] (5 : ℤ) :=
  filter_ctc_output_blank_removed [1, 5, 1] 5

/-- Claim C8: `filter_ctc_output` raises its `ValueError` exactly on non-list
arguments, producing no partial output there, and returns normally on every
list argument. -/
theorem filter_ctc_output_checked_spec (b : α) :
    (∀ l : List α, filter_ctc_output_checked (PyArg.pyList l) b
        = Except.ok (filter_ctc_output l b)) ∧
    (∀ typeName : String, filter_ctc_output_checked (PyArg.nonList typeName) b
        = Except.error "filter_ctc_out can only filter python lists") :=
  ⟨fun _ => rfl, fun _ => rfl⟩

/-- Witness for claim C8 at concrete inputs: a list is processed, a non-list
(here a Python `int`) raises. -/
theorem filter_ctc_output_checked_spec_witness :
    filter_ctc_output_checked (PyArg.pyList [1, 2]) (5 : ℤ)
        = Except.ok (filter_ctc_output [1, 2] (5 : ℤ)) ∧
    filter_ctc_output_checked (PyArg.nonList "int") (5 : ℤ)
        = Except.error "filter_ctc_out can only filter python lists" :=
  ⟨(filter_ctc_output_checked_spec (5 : ℤ)).1 [1, 2],
   (filter_ctc_output_checked_spec (5 : ℤ)).2 "int"⟩

/-- Claim C9: with the `blank_id` argument omitted, the blank defaults to
`-1`, so elements equal to `-1` are removed by default. -/
theorem filter_ctc_output_default_blank (s : List ℤ) :
    filter_ctc_output_int s = filter_ctc_output s (-1)
      ∧ (-1 : ℤ) ∉ filter_ctc_output_int s :=
  ⟨rfl, not_mem_filter_ctc_output s (-1)⟩

/-- Witness for claim C9 at a concrete input. -/
theorem filter_ctc_output_default_blank_witness :
    filter_ctc_output_int [-1, 3] = filter_ctc_output [-1, 3] (-1)
      ∧ (-1 : ℤ) ∉ filter_ctc_output_int [-1, 3] :=
  filter_ctc_output_default_blank [-1, 3]

/-- Claim C10: the middle `groupby` pass of `filter_ctc_output` is redundant:
composing only the first (filter repetitions) and third (remove blanks)
passes gives the same function. -/
theorem filter_ctc_output_groupby_redundant (s : List α) (b : α) :
    filter_ctc_output s b = filter_ctc_output_two_pass s b := by
  unfold filter_ctc_output_two_pass
  rw [filter_ctc_output_eq, filterReps_eq_destutter]

/-- Witness for claim C10 at a concrete input. -/
theorem filter_ctc_output_groupby_redundant_witness :
    filter_ctc_output [2, 2, 9] (9 : ℤ) = filter_ctc_output_two_pass [2, 2, 9] 9 :=
  filter_ctc_output_groupby_redundant [2, 2, 9] 9

/-! ### Greedy batch decoding: `ctc_greedy_decode`

Tensors are modeled as nested lists of exact rationals: a probability batch is
`List (List (List ℚ))` of shape `(B, V, T)` (batch, vocabulary, time).  Raised
torch exceptions are modeled with `Except String`. -/

/-- Model of `torch.round` on an exact rational: round to the nearest integer,
with ties (fractional part exactly one half) going to the even integer — the
tie rule `torch.round` documents.  `int(...)` on the already-integral result
is the identity. -/
def roundHalfEven (q : ℚ) : ℤ :=
  if q - ⌊q⌋ < 1 / 2 then ⌊q⌋
  else if 1 / 2 < q - ⌊q⌋ then ⌊q⌋ + 1
  else if ⌊q⌋ % 2 = 0 then ⌊q⌋ else ⌊q⌋ + 1

lemma roundHalfEven_nonneg {q : ℚ} (h : 0 ≤ q) : 0 ≤ roundHalfEven q := by
  have hf : (0 : ℤ) ≤ ⌊q⌋ := Int.floor_nonneg.mpr h
  unfold roundHalfEven
  repeat' split
  all_goals omega

lemma roundHalfEven_le {q : ℚ} {T : ℕ} (h : q ≤ T) : roundHalfEven q ≤ T := by
  have hfloor : ⌊q⌋ ≤ (T : ℤ) := by
    have := Int.floor_le_floor h
    rwa [Int.floor_natCast] at this
  have key : 1 / 2 ≤ q - ⌊q⌋ → ⌊q⌋ < (T : ℤ) := by
    intro hfrac
    rcases lt_or_eq_of_le hfloor with hlt | heq
    · exact hlt
    · exfalso
      have hq : (⌊q⌋ : ℚ) + 1 / 2 ≤ q := by linarith
      rw [heq] at hq
      push_cast at hq
      linarith
  unfold roundHalfEven
  by_cases h1 : q - ⌊q⌋ < 1 / 2
  · rw [if_pos h1]; exact hfloor
  · rw [if_neg h1]
    have hkey : ⌊q⌋ < (T : ℤ) := key (not_lt.mp h1)
    by_cases h2 : 1 / 2 < q - ⌊q⌋
    · rw [if_pos h2]; omega
    · rw [if_neg h2]; split <;> omega

/-- The scan behind the `indices` part of `torch.max(·, dim=0)` on one score
column: `bi` and `bv` are the index and value of the best element seen so far,
`i` the index of the next element; only a strictly greater value replaces the
best, so the first occurrence of the maximum wins. -/
def argmaxFirstAux : ℕ → ℚ → ℕ → List ℚ → ℕ
  | bi, _, _, [] => bi
  | bi, bv, i, x :: xs =>
    if bv < x then argmaxFirstAux i x (i + 1) xs
    else argmaxFirstAux bi bv (i + 1) xs

/-- The `indices` entry of `torch.max(t, dim=0)` for one column: the index of
the first maximal value; `torch.max` raises when the reduction dimension is
empty, which is modeled by `none`. -/
def argmaxFirst : List ℚ → Option ℕ
  | [] => none
  | x :: xs => some (argmaxFirstAux 0 x 1 xs)

/-- Spec-side arg-max, transcribing the claim's words: the index of the
maximum score, ties broken by the lowest (first-occurring) index. -/
def specArgmax (col : List ℚ) : ℕ :=
  col.findIdx (fun x => col.all (fun y => decide (y ≤ x)))

/-- Characterization of the spec-side arg-max position: in range, maximal, and
strictly greater than every earlier entry. -/
def IsFirstArgmax (col : List ℚ) (j : ℕ) : Prop :=
  j < col.length ∧ (∀ k < col.length, col.getD k 0 ≤ col.getD j 0)
    ∧ ∀ k < j, col.getD k 0 < col.getD j 0

lemma IsFirstArgmax_unique {col : List ℚ} {j j' : ℕ}
    (h : IsFirstArgmax col j) (h' : IsFirstArgmax col j') : j = j' := by
  rcases lt_trichotomy j j' with hlt | heq | hgt
  · exact absurd (h.2.1 j' h'.1) (not_le.mpr (h'.2.2 j hlt))
  · exact heq
  · exact absurd (h'.2.1 j h.1) (not_le.mpr (h.2.2 j' hgt))

/-- Invariant proof for the arg-max scan: if `pre` is the already-scanned
prefix and `bi` points at the first occurrence of its maximum, scanning the
rest `l` lands on the first occurrence of the maximum of `pre ++ l`. -/
lemma argmaxFirstAux_spec (l : List ℚ) :
    ∀ (pre : List ℚ) (bi : ℕ),
      bi < pre.length →
      (∀ k < pre.length, pre.getD k 0 ≤ pre.getD bi 0) →
      (∀ k < bi, pre.getD k 0 < pre.getD bi 0) →
      IsFirstArgmax (pre ++ l) (argmaxFirstAux bi (pre.getD bi 0) pre.length l) := by
  induction l with
  | nil =>
    intro pre bi hbi hmax hfirst
    unfold argmaxFirstAux
    rw [List.append_nil]
    exact ⟨hbi, hmax, hfirst⟩
  | cons x xs ih =>
    intro pre bi hbi hmax hfirst
    have hlen1 : (pre ++ [x]).length = pre.length + 1 := by simp
    have hgetx : (pre ++ [x]).getD pre.length 0 = x := by
      rw [List.getD_append_right _ _ _ _ (le_refl _)]
      simp
    have hgetold : ∀ k < pre.length, (pre ++ [x]).getD k 0 = pre.getD k 0 := by
      intro k hk
      exact List.getD_append _ _ _ _ hk
    unfold argmaxFirstAux
    by_cases hlt : pre.getD bi 0 < x
    · rw [if_pos hlt]
      have hres := ih (pre ++ [x]) pre.length
        (by omega)
        (by
          intro k hk
          rw [hlen1] at hk
          rw [hgetx]
          rcases Nat.lt_succ_iff_lt_or_eq.mp hk with hk' | hk'
          · rw [hgetold k hk']
            exact (hmax k hk').trans hlt.le
          · subst hk'
            rw [hgetx])
        (by
          intro k hk
          rw [hgetx, hgetold k hk]
          exact (hmax k hk).trans_lt hlt)
      rw [hgetx, hlen1, List.append_assoc, List.singleton_append] at hres
      exact hres
    · rw [if_neg hlt]
      have hgetbi : (pre ++ [x]).getD bi 0 = pre.getD bi 0 := hgetold bi hbi
      have hres := ih (pre ++ [x]) bi
        (by omega)
        (by
          intro k hk
          rw [hlen1] at hk
          rw [hgetbi]
          rcases Nat.lt_succ_iff_lt_or_eq.mp hk with hk' | hk'
          · rw [hgetold k hk']
            exact hmax k hk'
          · subst hk'
            rw [hgetx]
            exact not_lt.mp hlt)
        (by
          intro k hk
          rw [hgetbi, hgetold k (hk.trans hbi)]
          exact hfirst k hk)
      rw [hgetbi, hlen1, List.append_assoc, List.singleton_append] at hres
      exact hres

lemma argmaxFirst_isFirstArgmax (x : ℚ) (xs : List ℚ) :
    IsFirstArgmax (x :: xs) (argmaxFirstAux 0 x 1 xs) := by
  have h := argmaxFirstAux_spec xs [x] 0
    (by simp)
    (by
      intro k hk
      have hk0 : k = 0 := by simpa using hk
      subst hk0
      exact le_refl _)
    (by
      intro k hk
      exact absurd hk (Nat.not_lt_zero k))
  simpa using h

/-- The spec-side arg-max agrees with any index satisfying the
characterization. -/
lemma specArgmax_eq {col : List ℚ} {j : ℕ} (hj : IsFirstArgmax col j) :
    specArgmax col = j := by
  obtain ⟨hjlen, hmax, hfirst⟩ := hj
  have hmemj : col.getD j 0 ∈ col := by
    rw [List.getD_eq_getElem _ _ hjlen]
    exact List.getElem_mem hjlen
  have hpredj : (fun x => col.all (fun y => decide (y ≤ x))) (col.getD j 0) = true := by
    simp only [List.all_eq_true, decide_eq_true_eq]
    intro y hy
    obtain ⟨k, hk, rfl⟩ := List.mem_iff_getElem.mp hy
    have h := hmax k hk
    rw [List.getD_eq_getElem _ _ hk] at h
    exact h
  have hlt : specArgmax col < col.length :=
    List.findIdx_lt_length_of_exists ⟨col.getD j 0, hmemj, hpredj⟩
  have hpred : (fun x => col.all (fun y => decide (y ≤ x)))
      (col.getD (specArgmax col) 0) = true := by
    rw [List.getD_eq_getElem _ _ hlt]
    exact @List.findIdx_getElem _ _ _ hlt
  have hmax' : ∀ y ∈ col, y ≤ col.getD (specArgmax col) 0 := by
    simpa only [List.all_eq_true, decide_eq_true_eq] using hpred
  refine IsFirstArgmax_unique ⟨hlt, ?_, ?_⟩ ⟨hjlen, hmax, hfirst⟩
  · intro k hk
    have hmemk : col.getD k 0 ∈ col := by
      rw [List.getD_eq_getElem _ _ hk]
      exact List.getElem_mem hk
    exact hmax' _ hmemk
  · intro k hk
    have hklen : k < col.length := hk.trans hlt
    have hk2 : k < col.findIdx (fun x => col.all (fun y => decide (y ≤ x))) := hk
    have hnp := List.not_of_lt_findIdx hk2
    rw [Bool.eq_false_iff] at hnp
    simp only [ne_eq, List.all_eq_true, decide_eq_true_eq] at hnp
    push_neg at hnp
    obtain ⟨y, hy, hylt⟩ := hnp
    have hyk : col.getD k 0 < y := by
      rw [List.getD_eq_getElem _ _ hklen]
      exact hylt
    exact hyk.trans_le (hmax' y hy)

lemma argmaxFirst_eq_specArgmax {col : List ℚ} (h : col ≠ []) :
    argmaxFirst col = some (specArgmax col) := by
  cases col with
  | nil => exact absurd rfl h
  | cons x xs =>
    unfold argmaxFirst
    rw [specArgmax_eq (argmaxFirst_isFirstArgmax x xs)]

/-- Per-column application of a fallible operation; the first failure makes
the whole application fail, like a raised exception. -/
def mapOpt {σ β : Type} (f : σ → Option β) : List σ → Option (List β)
  | [] => some []
  | x :: xs =>
    match f x, mapOpt f xs with
    | some y, some ys => some (y :: ys)
    | _, _ => none

/-- The decoding loop: each element is processed in order and its result
appended; a raised exception propagates, aborting the loop with no partial
output. -/
def mapExcept {σ β : Type} (f : σ → Except String β) : List σ → Except String (List β)
  | [] => Except.ok []
  | x :: xs =>
    match f x with
    | Except.error e => Except.error e
    | Except.ok y =>
      match mapExcept f xs with
      | Except.error e => Except.error e
      | Except.ok ys => Except.ok (y :: ys)

/-- Whether a call returned normally (`true`) or raised (`false`). -/
def isOkB {β : Type} : Except String β → Bool
  | Except.ok _ => true
  | Except.error _ => false

lemma mapOpt_eq_some {σ β : Type} (f : σ → Option β) (g : σ → β) :
    ∀ l : List σ, (∀ a ∈ l, f a = some (g a)) → mapOpt f l = some (l.map g) := by
  intro l
  induction l with
  | nil => intro _; rfl
  | cons x xs ih =>
    intro h
    unfold mapOpt
    rw [h x (List.mem_cons_self x xs), ih (fun a ha => h a (List.mem_cons_of_mem x ha))]
    rfl

lemma mapExcept_eq_ok {σ β : Type} (f : σ → Except String β) (g : σ → β) :
    ∀ l : List σ, (∀ a ∈ l, f a = Except.ok (g a)) →
      mapExcept f l = Except.ok (l.map g) := by
  intro l
  induction l with
  | nil => intro _; rfl
  | cons x xs ih =>
    intro h
    unfold mapExcept
    rw [h x (List.mem_cons_self x xs), ih (fun a ha => h a (List.mem_cons_of_mem x ha))]
    rfl

lemma mapExcept_not_ok {σ β : Type} (f : σ → Except String β) :
    ∀ (l : List σ) (a : σ), a ∈ l → isOkB (f a) = false →
      isOkB (mapExcept f l) = false := by
  intro l
  induction l with
  | nil => intro a ha _; exact absurd ha (List.not_mem_nil a)
  | cons x xs ih =>
    intro a ha hfa
    unfold mapExcept
    rcases List.mem_cons.mp ha with rfl | ha'
    · cases hfx : f a with
      | error e => rfl
      | ok y => rw [hfx] at hfa; exact absurd hfa (by simp [isOkB])
    · cases hfx : f x with
      | error e => rfl
      | ok y =>
        have htail := ih a ha' hfa
        cases htl : mapExcept f xs with
        | error e => rfl
        | ok ys => rw [htl] at htail; exact absurd htail (by simp [isOkB])

/-- `probabilities.shape[-1]`, the padded time extent: on the list model this
is the length of the first row of the first example (a torch tensor is
rectangular, so every row of every example has this same length). -/
def batchMaxLen (probabilities : List (List (List ℚ))) : ℕ :=
  ((probabilities.headD []).headD []).length

/-- The body of the `for seq, seq_len in zip(probabilities, seq_lens)` loop of
`ctc_greedy_decode`:
`actual_size = int(torch.round(seq_len * batch_max_len))`, then
`torch.max(seq.narrow(-1, 0, actual_size), dim=0)` and
`filter_ctc_output(predictions.tolist(), blank_id)`.
`narrow` raises when the requested length is negative or exceeds the time
dimension (for a rectangular tensor the row length equals `batch_max_len`);
`torch.max` raises when asked to reduce an empty vocabulary dimension, which
surfaces as `argmaxFirst` returning `none` on an empty column.  (Corner case
not exercised by any claim: a tensor with zero vocabulary rows and
`actual_size = 0` is modeled as succeeding with an empty prediction list.) -/
def decodeExample (seq : List (List ℚ)) (batch_max_len : ℕ) (seq_len : ℚ)
    (blank_id : ℕ) : Except String (List ℕ) :=
  if roundHalfEven (seq_len * batch_max_len) < 0 ∨
      (batch_max_len : ℤ) < roundHalfEven (seq_len * batch_max_len) then
    Except.error "narrow: start and length out of range"
  else
    match mapOpt argmaxFirst
        ((List.range (roundHalfEven (seq_len * batch_max_len)).toNat).map
          (fun t => seq.map
            (fun row => (row.take (roundHalfEven (seq_len * batch_max_len)).toNat).getD t 0))) with
    | none => Except.error "max: expected reduction dim to have non-zero size"
    | some predictions => Except.ok (filter_ctc_output predictions blank_id)

/-- `ctc_greedy_decode(probabilities, seq_lens, blank_id)`: iterate
`zip(probabilities, seq_lens)` (which silently stops at the shorter of the
two), decode each example greedily, and collect the ragged outputs in batch
order; a raised exception aborts the whole call with no partial output. -/
def ctc_greedy_decode (probabilities : List (List (List ℚ))) (seq_lens : List ℚ)
    (blank_id : ℕ) : Except String (List (List ℕ)) :=
  mapExcept (fun p => decodeExample p.1 (batchMaxLen probabilities) p.2 blank_id)
    (probabilities.zip seq_lens)

/-- Spec-side dense sequence for one example, transcribing the claim: for each
of the first `round(relative_length * T)` time steps, the vocabulary index
with the maximum score, ties broken by the lowest index. -/
def denseArgmaxSeq (seq : List (List ℚ)) (T : ℕ) (rel : ℚ) : List ℕ :=
  (List.range (roundHalfEven (rel * T)).toNat).map
    (fun t => specArgmax (seq.map (fun row => row.getD t 0)))

lemma getD_take {row : List ℚ} {n t : ℕ} (h : t < n) :
    (row.take n).getD t 0 = row.getD t 0 := by
  rw [List.getD_eq_getElem?_getD, List.getD_eq_getElem?_getD, List.getElem?_take,
    if_pos h]

/-- The columns of the narrowed tensor carry the same entries as the columns
of the full tensor, so the scanned arg-max indices form exactly the spec-side
dense sequence. -/
lemma predictions_eq (seq : List (List ℚ)) (n : ℕ) :
    ((List.range n).map
        (fun t => seq.map (fun row => (row.take n).getD t 0))).map specArgmax
      = (List.range n).map
          (fun t => specArgmax (seq.map (fun row => row.getD t 0))) := by
  rw [List.map_map]
  refine List.map_congr_left ?_
  intro t ht
  have htn : t < n := List.mem_range.mp ht
  simp only [Function.comp]
  congr 1
  refine List.map_congr_left ?_
  intro row _
  exact getD_take htn

/-- On a well-shaped example with a round that lands inside `[0, T]`, the loop
body returns the collapsed spec-side arg-max sequence. -/
lemma decodeExample_ok (seq : List (List ℚ)) (T : ℕ) (rel : ℚ) (blank : ℕ)
    (hV : seq ≠ [])
    (h0 : 0 ≤ roundHalfEven (rel * T))
    (hT : roundHalfEven (rel * T) ≤ T) :
    decodeExample seq T rel blank
      = Except.ok (filter_ctc_output (denseArgmaxSeq seq T rel) blank) := by
  unfold decodeExample
  rw [if_neg (by rw [not_or]; exact ⟨not_lt.mpr h0, not_lt.mpr hT⟩)]
  have hmap : mapOpt argmaxFirst
      ((List.range (roundHalfEven (rel * T)).toNat).map
        (fun t => seq.map
          (fun row => (row.take (roundHalfEven (rel * T)).toNat).getD t 0)))
      = some (denseArgmaxSeq seq T rel) := by
    rw [mapOpt_eq_some argmaxFirst specArgmax _ ?_]
    · rw [predictions_eq]
      rfl
    · intro c hc
      obtain ⟨t, _, rfl⟩ := List.mem_map.mp hc
      refine argmaxFirst_eq_specArgmax ?_
      rw [ne_eq, List.map_eq_nil_iff]
      exact hV
  rw [hmap]

/-- On a nonempty batch of shape `(B, V, T)` with `V > 0`, the computed
`shape[-1]` is `T`. -/
lemma batchMaxLen_eq {probs : List (List (List ℚ))} {V T : ℕ} (hV : 0 < V)
    (hshape : ∀ ex ∈ probs, ex.length = V ∧ ∀ row ∈ ex, row.length = T)
    (hne : probs ≠ []) : batchMaxLen probs = T := by
  cases probs with
  | nil => exact absurd rfl hne
  | cons ex rest =>
    obtain ⟨hlen, hrow⟩ := hshape ex (List.mem_cons_self ex rest)
    cases ex with
    | nil => rw [List.length_nil] at hlen; omega
    | cons row rows =>
      unfold batchMaxLen
      simp only [List.headD_cons]
      exact hrow row (List.mem_cons_self row rows)

/-- Master lemma: on a well-shaped batch with relative lengths in `(0, 1]`,
`ctc_greedy_decode` succeeds and produces, for every `(example, length)` pair
that `zip` retains, the collapsed spec-side arg-max sequence. -/
lemma ctc_greedy_decode_ok (probs : List (List (List ℚ))) (lens : List ℚ)
    (blank V T : ℕ) (hV : 0 < V)
    (hshape : ∀ ex ∈ probs, ex.length = V ∧ ∀ row ∈ ex, row.length = T)
    (hlens : ∀ r ∈ lens, 0 < r ∧ r ≤ 1) :
    ctc_greedy_decode probs lens blank
      = Except.ok ((probs.zip lens).map
          (fun p => filter_ctc_output (denseArgmaxSeq p.1 T p.2) blank)) := by
  unfold ctc_greedy_decode
  refine mapExcept_eq_ok _ _ _ ?_
  intro p hp
  obtain ⟨hp1, hp2⟩ := List.of_mem_zip hp
  obtain ⟨hlen, hrow⟩ := hshape p.1 hp1
  obtain ⟨hr0, hr1⟩ := hlens p.2 hp2
  have hne : probs ≠ [] := by
    intro hnil
    rw [hnil] at hp1
    exact List.not_mem_nil p.1 hp1
  rw [batchMaxLen_eq hV hshape hne]
  have hq0 : (0 : ℚ) ≤ p.2 * T := mul_nonneg hr0.le (Nat.cast_nonneg T)
  have hqT : p.2 * T ≤ (T : ℚ) := by
    calc p.2 * T ≤ 1 * T := mul_le_mul_of_nonneg_right hr1 (Nat.cast_nonneg T)
    _ = (T : ℚ) := one_mul _
  have hVne : p.1 ≠ [] := by
    intro hnil
    rw [hnil, List.length_nil] at hlen
    omega
  have hrow' : ∀ row ∈ p.1, row.length = T := hrow
  refine decodeExample_ok p.1 T p.2 blank hVne (roundHalfEven_nonneg hq0)
    (roundHalfEven_le hqT)

/-! ### Claims about `ctc_greedy_decode`

The Batteries rational-number operations are `@[irreducible]`, which blocks
elaboration-time evaluation of the concrete rational inputs below; restoring
their default reducibility lets `decide` and `rfl` evaluate them. -/

attribute [local semireducible] Rat.mul Rat.add Rat.sub Rat.ofScientific Rat.inv

/-- Claim C1: on a score batch of shape `(B, V, T)` (nonempty vocabulary) and
a length vector of length `B` with relative lengths in `(0, 1]`,
`ctc_greedy_decode` returns exactly `B` lists in input batch order, entry `i`
being `filter_ctc_output` (with the given blank id) of the dense sequence
that takes, for each of the first `round(relative_length_i * T)` time steps,
the vocabulary index of the maximum score with ties to the lowest index; an
empty batch yields an empty output list. -/
theorem ctc_greedy_decode_spec (probs : List (List (List ℚ))) (lens : List ℚ)
    (blank V T : ℕ) (hV : 0 < V)
    (hshape : ∀ ex ∈ probs, ex.length = V ∧ ∀ row ∈ ex, row.length = T)
    (hB : lens.length = probs.length)
    (hlens : ∀ r ∈ lens, 0 < r ∧ r ≤ 1) :
    ∃ out : List (List ℕ),
      ctc_greedy_decode probs lens blank = Except.ok out ∧
      out.length = probs.length ∧
      ∀ i : ℕ, i < probs.length →
        out.getD i []
          = filter_ctc_output (denseArgmaxSeq (probs.getD i []) T (lens.getD i 0))
              blank := by
  refine ⟨_, ctc_greedy_decode_ok probs lens blank V T hV hshape hlens, ?_, ?_⟩
  · rw [List.length_map, List.length_zip, hB, min_self]
  · intro i hi
    have hiz : i < ((probs.zip lens).map
        (fun p => filter_ctc_output (denseArgmaxSeq p.1 T p.2) blank)).length := by
      rw [List.length_map, List.length_zip, hB, min_self]
      exact hi
    have hil : i < lens.length := by rw [hB]; exact hi
    rw [List.getD_eq_getElem _ _ hiz, List.getElem_map, List.getElem_zip,
      List.getD_eq_getElem _ _ hi, List.getD_eq_getElem _ _ hil]

/-- Witness for claim C1 at the doctest input: batch of two examples with
`V = 2`, `T = 2`, lengths `[0.51, 1]`, blank id `0`. -/
theorem ctc_greedy_decode_spec_witness :
    ∃ out : List (List ℕ),
      ctc_greedy_decode [[[0.3, 0], [0.7, 0]], [[0.2, 0.9], [0.8, 0.1]]]
        [0.51, 1] 0 = Except.ok out ∧ out.length = 2 := by
  obtain ⟨out, hok, hlen, _⟩ :=
    ctc_greedy_decode_spec [[[0.3, 0], [0.7, 0]], [[0.2, 0.9], [0.8, 0.1]]]
      [0.51, 1] 0 2 2 (by decide) (by decide) rfl (by decide)
  exact ⟨out, hok, by rw [hlen]; rfl⟩

/-- Claim C5, counterexample: `ctc_greedy_decode` performs no shape check; a
length vector shorter than the batch (here `0 ≠ 1`) raises nothing; the
batch is silently truncated by `zip` and a partial result is returned. -/
theorem ctc_greedy_decode_no_shape_check :
    ([] : List ℚ).length ≠ ([[[(1 : ℚ)]]] : List (List (List ℚ))).length ∧
    ctc_greedy_decode [[[(1 : ℚ)]]] [] 0 = Except.ok [] := by
  exact ⟨by decide, rfl⟩

/-- Claim C5, amended: `ctc_greedy_decode` validates nothing; on shape-valid
examples, a mismatched length vector is silently truncated by `zip`, so the
call succeeds with `min B (length-vector size)` outputs instead of
raising. -/
theorem ctc_greedy_decode_truncates_to_min (probs : List (List (List ℚ)))
    (lens : List ℚ) (blank V T : ℕ) (hV : 0 < V)
    (hshape : ∀ ex ∈ probs, ex.length = V ∧ ∀ row ∈ ex, row.length = T)
    (hlens : ∀ r ∈ lens, 0 < r ∧ r ≤ 1) :
    ∃ out : List (List ℕ),
      ctc_greedy_decode probs lens blank = Except.ok out ∧
      out.length = min probs.length lens.length := by
  refine ⟨_, ctc_greedy_decode_ok probs lens blank V T hV hshape hlens, ?_⟩
  rw [List.length_map, List.length_zip]

/-- Witness for the amended claim C5: two shape-valid examples but a single
relative length; the call succeeds with one output. -/
theorem ctc_greedy_decode_truncates_to_min_witness :
    ∃ out : List (List ℕ),
      ctc_greedy_decode [[[(0.5 : ℚ)]], [[(0.5 : ℚ)]]] [1] 0 = Except.ok out ∧
      out.length = 1 := by
  obtain ⟨out, hok, hlen⟩ :=
    ctc_greedy_decode_truncates_to_min [[[(0.5 : ℚ)]], [[(0.5 : ℚ)]]] [1] 0 1 1
      (by decide) (by decide) (by decide)
  exact ⟨out, hok, by simp [hlen]⟩

/-- Claim C6, counterexample: a relative length of exactly `0` does not raise
any error; the example silently decodes to the empty sequence. -/
theorem ctc_greedy_decode_zero_length_silent :
    (0 : ℚ) ≤ 0 ∧
    ctc_greedy_decode [[[(1 : ℚ)]]] [0] 0 = Except.ok [[]] :=
  ⟨le_refl 0, rfl⟩

/-- Claim C6, amended: there is no dedicated length validation; a relative
length of `0` silently yields an empty sequence (see the counterexample), and
a relative length whose rounded frame count is negative makes the whole call
fail with the `narrow` range error rather than a dedicated
`OutOfRangeLength`. -/
theorem ctc_greedy_decode_negative_round_not_ok (probs : List (List (List ℚ)))
    (lens : List ℚ) (blank i : ℕ)
    (hi : i < (probs.zip lens).length)
    (hneg : roundHalfEven
      (((probs.zip lens).getD i ([], 0)).2 * batchMaxLen probs) < 0) :
    isOkB (ctc_greedy_decode probs lens blank) = false := by
  unfold ctc_greedy_decode
  have hmem : (probs.zip lens).getD i ([], 0) ∈ probs.zip lens := by
    rw [List.getD_eq_getElem _ _ hi]
    exact List.getElem_mem hi
  refine mapExcept_not_ok _ _ _ hmem ?_
  unfold decodeExample
  rw [if_pos (Or.inl hneg)]
  rfl

/-- Witness for the amended claim C6: a single example with relative length
`-1`, whose rounded frame count `-1` is negative; the call raises. -/
theorem ctc_greedy_decode_negative_round_not_ok_witness :
    0 < ([[[(1 : ℚ)]]].zip [(-1 : ℚ)]).length ∧
    isOkB (ctc_greedy_decode [[[(1 : ℚ)]]] [-1] 0) = false :=
  ⟨by decide,
   ctc_greedy_decode_negative_round_not_ok [[[(1 : ℚ)]]] [-1] 0 0
     (by decide) (by decide)⟩

/-- Sanity check: the embedding reproduces the doctest of
`ctc_greedy_decode` exactly. -/
theorem ctc_greedy_decode_doctest :
    ctc_greedy_decode [[[0.3, 0], [0.7, 0]], [[0.2, 0.9], [0.8, 0.1]]]
      [0.51, 1] 0 = Except.ok [[1], [1]] := rfl

/-- Sanity check: the embedding reproduces the doctest of
`filter_ctc_output` exactly. -/
theorem filter_ctc_output_doctest :
    filter_ctc_output ["a", "a", "blank", "b", "b", "blank", "c"] "blank"
      = ["a", "b", "c"] := rfl

end CTC
